import Mathlib

set_option maxHeartbeats 1000000
set_option maxRecDepth 10000

namespace Duc

/-! Shallow embedding of the RAG core of the `duc` repository.

The chunking claims concern `split_docs` (src/app/utils/loaders.py), which
configures and calls `RecursiveCharacterTextSplitter` from
`langchain_text_splitters` with `length_function=len`,
`is_separator_regex=False`, and the library defaults
`separators=["\n\n", "\n", " ", ""]`, `keep_separator=True`,
`strip_whitespace=True`.  The splitter algorithm is embedded below on
`List Char`, following the library's `_split_text_with_regex`,
`_merge_splits` and `_split_text`. -/

/-- Python `str.strip()` whitespace characters (the ASCII ones). -/
def isPySpace (c : Char) : Bool :=
  c = ' ' || c = '\t' || c = '\n' || c = '\r' || c = '\x0B' || c = '\x0C'

/-- Python `str.lstrip()`. -/
def lstripL (l : List Char) : List Char := l.dropWhile isPySpace

/-- Python `str.rstrip()`. -/
def rstripL (l : List Char) : List Char := (l.reverse.dropWhile isPySpace).reverse

/-- Python `str.strip()`. -/
def stripL (l : List Char) : List Char := rstripL (lstripL l)

/-- Does `p` lead `l` (i.e. is `p` a leading segment of `l`)? -/
def leadsWith : List Char → List Char → Bool
  | [], _ => true
  | _ :: _, [] => false
  | a :: p, b :: l => a == b && leadsWith p l

/-- Split at the leftmost occurrence of `sep`: `some (b, a)` with
`b ++ sep ++ a = text` and `b` shortest, or `none` if `sep` does not occur.
This mirrors `re.split` finding the first match of an escaped literal. -/
def breakOn (sep : List Char) : List Char → Option (List Char × List Char)
  | [] => none
  | c :: cs =>
    if leadsWith sep (c :: cs) then some ([], (c :: cs).drop sep.length)
    else
      match breakOn sep cs with
      | none => none
      | some (b, a) => some (c :: b, a)

/-- Glue the separator onto the front of the first of the later pieces and
prepend the piece before it. -/
def glueSep (sep b : List Char) : List (List Char) → List (List Char)
  | [] => [b]
  | x :: xs => b :: (sep ++ x) :: xs

/-- The pieces produced by `_split_text_with_regex` with `keep_separator=True`
for a nonempty literal separator: the text between occurrences, with the
separator glued onto the front of every piece after the first. -/
def splitKeep (sep : List Char) : Nat → List Char → List (List Char)
  | 0, text => [text]
  | fuel + 1, text =>
    match breakOn sep text with
    | none => [text]
    | some (b, a) => glueSep sep b (splitKeep sep fuel a)

/-- `_split_text_with_regex(text, separator, keep_separator=True)`:
empty separator splits into single characters; empty pieces are dropped. -/
def splitWithSep (sep text : List Char) : List (List Char) :=
  if sep.isEmpty then (text.map (fun c => [c])).filter (fun s => !s.isEmpty)
  else (splitKeep sep text.length text).filter (fun s => !s.isEmpty)

/-- Does `sep` occur anywhere in the text (Python `re.search` of a literal)? -/
def containsSeq (sep : List Char) : List Char → Bool
  | [] => leadsWith sep []
  | c :: cs => leadsWith sep (c :: cs) || containsSeq sep cs

/-- Separator selection loop of `RecursiveCharacterTextSplitter._split_text`:
take the last separator by default; scan in order, stopping at the first empty
separator (with no remaining separators) or the first separator occurring in
the text (with the rest of the list as the remaining separators). -/
def chooseSep (lastSep : List Char) (text : List Char) :
    List (List Char) → List Char × List (List Char)
  | [] => (lastSep, [])
  | s :: rest =>
    if s.isEmpty then ([], [])
    else if containsSeq s text then (s, rest)
    else chooseSep lastSep text rest

/-- The overlap-popping `while` loop inside `TextSplitter._merge_splits`
(separator is empty, so the separator length terms vanish). -/
def popLoop (size overlap lend : Nat) : List (List Char) → Nat → List (List Char) × Nat
  | [], total => ([], total)
  | c :: cs, total =>
    if overlap < total ∨ (size < total + lend ∧ 0 < total) then
      popLoop size overlap lend cs (total - c.length)
    else (c :: cs, total)

/-- `TextSplitter._join_docs` with the empty separator: join the window,
strip whitespace, drop the result if it became empty. -/
def joinStrip (cur : List (List Char)) : Option (List Char) :=
  let t := stripL cur.flatten
  if t.isEmpty then none else some t

/-- `TextSplitter._merge_splits` with the empty separator: slide a window
`cur` (running length `total`) over the splits, emitting the joined window
whenever the next split would overflow `chunk_size`, then popping from the
front down to `chunk_overlap`. -/
def mergeAux (size overlap : Nat) : List (List Char) → List (List Char) → Nat → List (List Char)
  | [], cur, _ => (joinStrip cur).toList
  | d :: rest, cur, total =>
    if size < total + d.length then
      if cur.isEmpty then mergeAux size overlap rest (cur ++ [d]) (total + d.length)
      else
        let pr := popLoop size overlap d.length cur total
        (joinStrip cur).toList ++ mergeAux size overlap rest (pr.1 ++ [d]) (pr.2 + d.length)
    else mergeAux size overlap rest (cur ++ [d]) (total + d.length)

/-- `TextSplitter._merge_splits` entry point. -/
def mergeSplits (size overlap : Nat) (splits : List (List Char)) : List (List Char) :=
  mergeAux size overlap splits [] 0

/-- The `for s in splits` loop of `_split_text`: accumulate consecutive
"good" splits (shorter than `chunk_size`) and merge them; a too-long split is
handed to `recur` (recursion on the remaining separators, or kept whole when
none remain). -/
def processSplits (size overlap : Nat) (recur : List Char → List (List Char)) :
    List (List Char) → List (List Char) → List (List Char)
  | [], good => if good.isEmpty then [] else mergeSplits size overlap good
  | s :: rest, good =>
    if s.length < size then processSplits size overlap recur rest (good ++ [s])
    else
      (if good.isEmpty then [] else mergeSplits size overlap good) ++ recur s
        ++ processSplits size overlap recur rest []

/-- Last element of the separator list (Python `separators[-1]`). -/
def lastD (l : List (List Char)) : List Char := l.getLastD []

/-- `RecursiveCharacterTextSplitter._split_text`.  The `fuel` argument is a
termination device only: the recursion always passes a strictly shorter
separator list, so `fuel = seps.length` never runs out. -/
def splitTextFuel (size overlap : Nat) : Nat → List (List Char) → List Char → List (List Char)
  | 0, _, text => [text]
  | fuel + 1, seps, text =>
    let p := chooseSep (lastD seps) text seps
    let splits := splitWithSep p.1 text
    processSplits size overlap
      (fun s => if p.2.isEmpty then [s] else splitTextFuel size overlap fuel p.2 s) splits []

/-- The default separator list `["\n\n", "\n", " ", ""]`. -/
def defaultSeps : List (List Char) := [['\n', '\n'], ['\n'], [' '], []]

/-- `RecursiveCharacterTextSplitter.split_text` as configured by `split_docs`. -/
def splitText (size overlap : Nat) (text : List Char) : List (List Char) :=
  splitTextFuel size overlap defaultSeps.length defaultSeps text

/-- A langchain `Document`, generic in the metadata representation (the
splitter copies metadata through unchanged). -/
structure TDoc (μ : Type) where
  page_content : List Char
  metadata : μ
deriving DecidableEq

/-- `split_docs` (src/app/utils/loaders.py): split every document's content
with the splitter, each chunk inheriting its parent's metadata
(`split_documents` / `create_documents` in the library). -/
def split_docs {μ : Type} (size overlap : Nat) (docs : List (TDoc μ)) : List (TDoc μ) :=
  (docs.map (fun d =>
    (splitText size overlap d.page_content).map
      (fun t => TDoc.mk t d.metadata))).flatten

/-! Basic lemmas about the splitting primitives. -/

theorem leadsWith_append : ∀ {p l : List Char}, leadsWith p l = true → p ++ l.drop p.length = l := by
  intro p
  induction p with
  | nil => intro l _; simp
  | cons a p ih =>
    intro l h
    cases l with
    | nil => simp [leadsWith] at h
    | cons b l =>
      simp only [leadsWith, Bool.and_eq_true, beq_iff_eq] at h
      obtain ⟨rfl, h2⟩ := h
      simpa using ih h2

theorem breakOn_eq :
    ∀ {text b a sep : List Char}, breakOn sep text = some (b, a) → b ++ sep ++ a = text := by
  intro text
  induction text with
  | nil => intro b a sep h; simp [breakOn] at h
  | cons c cs ih =>
    intro b a sep h
    simp only [breakOn] at h
    by_cases hl : leadsWith sep (c :: cs) = true
    · rw [if_pos hl] at h
      obtain ⟨rfl, rfl⟩ := Prod.mk.injEq .. ▸ Option.some.inj h
      simpa using leadsWith_append hl
    · rw [if_neg hl] at h
      cases hb : breakOn sep cs with
      | none => rw [hb] at h; cases h
      | some pr =>
        obtain ⟨b', a'⟩ := pr
        rw [hb] at h
        obtain ⟨rfl, rfl⟩ := Prod.mk.injEq .. ▸ Option.some.inj h
        have := ih hb
        simpa using this

theorem breakOn_length {sep text b a : List Char} (hs : sep ≠ [])
    (h : breakOn sep text = some (b, a)) : a.length < text.length := by
  have he := congrArg List.length (breakOn_eq h)
  simp [List.length_append] at he
  have h3 : 0 < sep.length := List.length_pos.mpr hs
  omega

theorem glueSep_ne_nil (sep b : List Char) (l : List (List Char)) :
    glueSep sep b l ≠ [] := by
  cases l <;> simp [glueSep]

theorem splitKeep_ne_nil (sep : List Char) (fuel : Nat) (text : List Char) :
    splitKeep sep fuel text ≠ [] := by
  cases fuel with
  | zero => simp [splitKeep]
  | succ fuel =>
    simp only [splitKeep]
    cases hb : breakOn sep text with
    | none => simp
    | some pr => exact glueSep_ne_nil _ _ _

theorem splitKeep_flatten (sep : List Char) :
    ∀ (fuel : Nat) (text : List Char), (splitKeep sep fuel text).flatten = text := by
  intro fuel
  induction fuel with
  | zero => intro text; simp [splitKeep]
  | succ fuel ih =>
    intro text
    simp only [splitKeep]
    cases hb : breakOn sep text with
    | none => simp
    | some pr =>
      obtain ⟨b, a⟩ := pr
      have he := breakOn_eq hb
      cases hs : splitKeep sep fuel a with
      | nil => exact absurd hs (splitKeep_ne_nil sep fuel a)
      | cons x xs =>
        have h0 : x ++ xs.flatten = a := by
          have h1 := ih a
          rw [hs] at h1
          simpa using h1
        show (glueSep sep b (splitKeep sep fuel a)).flatten = text
        rw [hs]
        simp only [glueSep, List.flatten_cons]
        rw [← he, ← h0]
        simp

theorem flatten_filter_ne_nil (l : List (List Char)) :
    (l.filter (fun s => !s.isEmpty)).flatten = l.flatten := by
  induction l with
  | nil => rfl
  | cons x xs ih =>
    cases x with
    | nil => simpa using ih
    | cons c cs => simpa using ih

theorem flatten_map_singleton (text : List Char) :
    (text.map (fun c => [c])).flatten = text := by
  induction text with
  | nil => rfl
  | cons c cs ih => simpa using ih

theorem splitWithSep_flatten (sep text : List Char) :
    (splitWithSep sep text).flatten = text := by
  unfold splitWithSep
  by_cases h : sep.isEmpty
  · rw [if_pos h, flatten_filter_ne_nil, flatten_map_singleton]
  · rw [if_neg h, flatten_filter_ne_nil, splitKeep_flatten]

/-! Length bound: every chunk emitted by the merge loop is at most
`chunk_size` characters, because every accumulated split is strictly shorter
than `chunk_size` and the window is flushed before it can overflow. -/

def sumLen (l : List (List Char)) : Nat := (l.map List.length).sum

theorem stripL_length_le (l : List Char) : (stripL l).length ≤ l.length := by
  unfold stripL rstripL lstripL
  calc ((l.dropWhile isPySpace).reverse.dropWhile isPySpace).reverse.length
      = ((l.dropWhile isPySpace).reverse.dropWhile isPySpace).length := by simp
    _ ≤ (l.dropWhile isPySpace).reverse.length := (List.dropWhile_sublist _).length_le
    _ = (l.dropWhile isPySpace).length := by simp
    _ ≤ l.length := (List.dropWhile_sublist _).length_le

theorem flatten_sumLen (l : List (List Char)) : l.flatten.length = sumLen l := by
  simp [sumLen]

theorem joinStrip_length {cur : List (List Char)} {t : List Char}
    (h : joinStrip cur = some t) : t.length ≤ sumLen cur := by
  simp only [joinStrip] at h
  split at h
  · cases h
  · obtain rfl := Option.some.inj h
    calc (stripL cur.flatten).length ≤ cur.flatten.length := stripL_length_le _
      _ = sumLen cur := flatten_sumLen cur

theorem popLoop_sum (size overlap lend : Nat) :
    ∀ (cur : List (List Char)) (total : Nat), total = sumLen cur →
      (popLoop size overlap lend cur total).2 = sumLen (popLoop size overlap lend cur total).1 ∧
      (popLoop size overlap lend cur total).2 ≤ overlap ∧
      ((popLoop size overlap lend cur total).2 + lend ≤ size ∨
        (popLoop size overlap lend cur total).2 = 0) := by
  intro cur
  induction cur with
  | nil =>
    intro total h
    simp [sumLen] at h
    simp [popLoop, h, sumLen]
  | cons c cs ih =>
    intro total h
    simp only [popLoop]
    by_cases hg : overlap < total ∨ (size < total + lend ∧ 0 < total)
    · rw [if_pos hg]
      apply ih
      simp [sumLen] at h ⊢
      omega
    · rw [if_neg hg]
      push_neg at hg
      exact ⟨h, hg.1, by omega⟩

theorem popLoop_suffix (size overlap lend : Nat) :
    ∀ (cur : List (List Char)) (total : Nat),
      (popLoop size overlap lend cur total).1 <:+ cur := by
  intro cur
  induction cur with
  | nil => intro total; simp [popLoop]
  | cons c cs ih =>
    intro total
    simp only [popLoop]
    by_cases hg : overlap < total ∨ (size < total + lend ∧ 0 < total)
    · rw [if_pos hg]
      exact (ih _).trans (List.suffix_cons c cs)
    · rw [if_neg hg]

theorem mergeAux_len (size overlap : Nat) :
    ∀ (splits cur : List (List Char)) (total : Nat), total = sumLen cur → total ≤ size →
      (∀ s ∈ splits, s.length < size) →
      ∀ d ∈ mergeAux size overlap splits cur total, d.length ≤ size := by
  intro splits
  induction splits with
  | nil =>
    intro cur total h hts _ d hd
    simp only [mergeAux] at hd
    cases hj : joinStrip cur with
    | none => rw [hj] at hd; cases hd
    | some t =>
      rw [hj] at hd
      simp at hd
      subst hd
      calc d.length ≤ sumLen cur := joinStrip_length hj
        _ = total := h.symm
        _ ≤ size := hts
  | cons s rest ih =>
    intro cur total h hts hsp d hd
    have hs : s.length < size := hsp s (List.mem_cons_self _ _)
    have hsp' : ∀ x ∈ rest, x.length < size := fun x hx => hsp x (List.mem_cons_of_mem _ hx)
    simp only [mergeAux] at hd
    by_cases hov : size < total + s.length
    · rw [if_pos hov] at hd
      by_cases hcur : cur.isEmpty
      · rw [if_pos hcur] at hd
        have hc : cur = [] := by
          cases cur with
          | nil => rfl
          | cons a l => simp at hcur
        subst hc
        simp [sumLen] at h
        subst h
        refine ih _ _ ?_ ?_ hsp' d hd
        · simp [sumLen]
        · omega
      · rw [if_neg hcur] at hd
        rcases List.mem_append.mp hd with hd1 | hd2
        · cases hj : joinStrip cur with
          | none => rw [hj] at hd1; cases hd1
          | some t =>
            rw [hj] at hd1
            simp at hd1
            subst hd1
            calc d.length ≤ sumLen cur := joinStrip_length hj
              _ = total := h.symm
              _ ≤ size := hts
        · have hp := popLoop_sum size overlap s.length cur total h
          refine ih _ _ ?_ ?_ hsp' d hd2
          · simp [sumLen, List.map_append, hp.1]
          · rcases hp.2.2 with h1 | h1 <;> omega
    · rw [if_neg hov] at hd
      refine ih _ _ ?_ ?_ hsp' d hd
      · simp [sumLen, List.map_append, h]
      · omega

theorem processSplits_len (size overlap : Nat) (recur : List Char → List (List Char)) :
    ∀ (splits good : List (List Char)),
      (∀ s ∈ splits, size ≤ s.length → ∀ c ∈ recur s, c.length ≤ size) →
      (∀ g ∈ good, g.length < size) →
      ∀ c ∈ processSplits size overlap recur splits good, c.length ≤ size := by
  intro splits
  induction splits with
  | nil =>
    intro good _ hg c hc
    simp only [processSplits] at hc
    by_cases h : good.isEmpty
    · rw [if_pos h] at hc; cases hc
    · rw [if_neg h] at hc
      exact mergeAux_len size overlap good [] 0 (by simp [sumLen]) (Nat.zero_le _) hg c hc
  | cons s rest ih =>
    intro good hrec hg c hc
    have hrec' : ∀ x ∈ rest, size ≤ x.length → ∀ c ∈ recur x, c.length ≤ size :=
      fun x hx => hrec x (List.mem_cons_of_mem _ hx)
    simp only [processSplits] at hc
    by_cases hlen : s.length < size
    · rw [if_pos hlen] at hc
      refine ih _ hrec' ?_ c hc
      intro g hgm
      rcases List.mem_append.mp hgm with h1 | h1
      · exact hg g h1
      · simp at h1; subst h1; exact hlen
    · rw [if_neg hlen] at hc
      rcases List.mem_append.mp hc with hc1 | hc3
      · rcases List.mem_append.mp hc1 with hc1 | hc2
        · by_cases h : good.isEmpty
          · rw [if_pos h] at hc1; cases hc1
          · rw [if_neg h] at hc1
            exact mergeAux_len size overlap good [] 0 (by simp [sumLen]) (Nat.zero_le _) hg c hc1
        · exact hrec s (List.mem_cons_self _ _) (Nat.le_of_not_lt hlen) c hc2
      · exact ih _ hrec' (by intro g hgm; cases hgm) c hc3

theorem chooseSep_cases (lastSep text : List Char) :
    ∀ seps : List (List Char), [] ∈ seps →
      chooseSep lastSep text seps = ([], []) ∨
      ∃ s rest, chooseSep lastSep text seps = (s, rest) ∧
        [] ∈ rest ∧ rest.length < seps.length := by
  intro seps
  induction seps with
  | nil => intro h; cases h
  | cons s ss ih =>
    intro hmem
    simp only [chooseSep]
    by_cases hs : s.isEmpty
    · rw [if_pos hs]; left; rfl
    · rw [if_neg hs]
      have hmem' : [] ∈ ss := by
        rcases List.mem_cons.mp hmem with h | h
        · exfalso; rw [← h] at hs; simp at hs
        · exact h
      by_cases hc : containsSeq s text = true
      · rw [if_pos hc]
        right
        exact ⟨s, ss, rfl, hmem', by simp⟩
      · rw [if_neg hc]
        rcases ih hmem' with h | ⟨s', rest, he, h2, h3⟩
        · left; exact h
        · right; exact ⟨s', rest, he, h2, Nat.lt_succ_of_lt h3⟩

theorem mem_charSplits {text s : List Char}
    (h : s ∈ (text.map (fun c => [c])).filter (fun x => !x.isEmpty)) : s.length = 1 := by
  have h1 := List.mem_filter.mp h
  obtain ⟨c, _, rfl⟩ := List.mem_map.mp h1.1
  rfl

theorem splitTextFuel_len (size overlap : Nat) (hsize : 1 ≤ size) :
    ∀ (fuel : Nat) (seps : List (List Char)) (text : List Char),
      seps.length ≤ fuel → [] ∈ seps →
      ∀ c ∈ splitTextFuel size overlap fuel seps text, c.length ≤ size := by
  intro fuel
  induction fuel with
  | zero =>
    intro seps text hle hmem
    have : seps = [] := List.length_eq_zero.mp (Nat.le_zero.mp hle)
    subst this
    cases hmem
  | succ fuel ih =>
    intro seps text hle hmem c hc
    simp only [splitTextFuel] at hc
    rcases chooseSep_cases (lastD seps) text seps hmem with he | ⟨s, rest, he, hr, hrl⟩
    · rw [he] at hc
      simp only [List.isEmpty_nil, if_true] at hc
      refine processSplits_len size overlap _ _ _ ?_ (by intro g hg; cases hg) c hc
      intro x hx _ c' hc'
      simp only [List.mem_singleton] at hc'
      rw [hc']
      have hx1 := mem_charSplits hx
      omega
    · rw [he] at hc
      have hrne : rest.isEmpty = false := by
        cases rest with
        | nil => cases hr
        | cons a l => rfl
      rw [hrne] at hc
      simp only [Bool.false_eq_true, if_false] at hc
      refine processSplits_len size overlap _ _ _ ?_ (by intro g hg; cases hg) c hc
      intro x hx _ c' hc'
      exact ih rest x (by omega) hr c' hc'

/-! Counterexample and amended theorem for the chunking claims. -/

def cexText : List Char := "aaaa bbbb cccc dddd eeee".toList

def cexUnit : TDoc Unit := TDoc.mk cexText ()

/-- Claim C1 (counterexample): with chunk_size 10 > chunk_overlap 3 ≥ 0 and a
TextUnit of 24 characters, `split_docs` yields chunks "aaaa bbbb",
"cccc dddd", "eeee" — the first two consecutive chunks (neither of which is
the final chunk of the unit) share no characters at all, so they do not
overlap by exactly 3 characters as the claim requires. -/
theorem c1_counterexample :
    3 < 10 ∧ 10 < cexText.length ∧
    (split_docs 10 3 [cexUnit]).map TDoc.page_content =
      ["aaaa bbbb".toList, "cccc dddd".toList, "eeee".toList] ∧
    ¬("aaaa bbbb".toList.drop ("aaaa bbbb".toList.length - 3) =
      "cccc dddd".toList.take 3) := by
  refine ⟨by decide, by decide, by decide, by decide⟩

/-- C1 (amended): for all chunk_size > chunk_overlap ≥ 0, every chunk
produced by `split_docs` from a TextUnit whose content length exceeds
chunk_size has character length ≤ chunk_size.  (The exact-overlap half of the
original claim is refuted by `c1_counterexample`: the splitter aligns the
overlap to separator boundaries, so consecutive chunks can overlap by fewer
than chunk_overlap characters, including zero.) -/
theorem c1_chunk_length {μ : Type} (size overlap : Nat) (unit : TDoc μ)
    (hov : overlap < size) (hlong : size < unit.page_content.length) :
    ∀ c ∈ split_docs size overlap [unit], c.page_content.length ≤ size := by
  intro c hc
  simp only [split_docs, List.map, List.flatten, List.append_nil] at hc
  obtain ⟨t, ht, rfl⟩ := List.mem_map.mp hc
  rw [splitText] at ht
  exact splitTextFuel_len size overlap (by omega) _ _ _ (Nat.le_refl _)
    (by simp [defaultSeps]) t ht

theorem c1_witness :
    3 < 10 ∧ 10 < cexUnit.page_content.length ∧
    (TDoc.mk ("aaaa bbbb".toList) () : TDoc Unit).page_content.length ≤ 10 :=
  ⟨by decide, by decide,
    c1_chunk_length 10 3 cexUnit (by decide) (by decide) _ (by decide)⟩

/-! Every chunk produced by the splitter is a contiguous substring of the
original text: the splits partition the text, the merge window is always a
run of consecutive splits, and stripping only removes characters at the two
ends. -/

theorem stripL_substr (l : List Char) : stripL l <:+: l := by
  have h1 : lstripL l <:+ l := List.dropWhile_suffix _
  have h2 : stripL l <+: lstripL l := by
    unfold stripL rstripL
    obtain ⟨t, ht⟩ : (lstripL l).reverse.dropWhile isPySpace <:+ (lstripL l).reverse :=
      List.dropWhile_suffix _
    refine ⟨t.reverse, ?_⟩
    have := congrArg List.reverse ht
    simpa using this
  exact h2.isInfix.trans h1.isInfix

theorem mergeAux_substr (size overlap : Nat) (T : List Char) :
    ∀ (splits cur : List (List Char)) (total : Nat),
      (cur.flatten ++ splits.flatten) <:+: T →
      ∀ d ∈ mergeAux size overlap splits cur total, d <:+: T := by
  intro splits
  induction splits with
  | nil =>
    intro cur total h d hd
    simp only [mergeAux] at hd
    cases hj : joinStrip cur with
    | none => rw [hj] at hd; cases hd
    | some t =>
      rw [hj] at hd
      simp at hd
      subst hd
      have ht : d = stripL cur.flatten := by
        simp only [joinStrip] at hj
        split at hj
        · cases hj
        · exact (Option.some.inj hj).symm
      rw [ht]
      refine (stripL_substr _).trans ?_
      simpa using h
  | cons s rest ih =>
    intro cur total h d hd
    simp only [mergeAux] at hd
    have hmid : (cur.flatten ++ [s].flatten ++ rest.flatten) <:+: T := by
      simpa [List.append_assoc] using h
    by_cases hov : size < total + s.length
    · rw [if_pos hov] at hd
      by_cases hcur : cur.isEmpty
      · rw [if_pos hcur] at hd
        refine ih (cur ++ [s]) _ ?_ d hd
        simpa [List.flatten_append, List.append_assoc] using h
      · rw [if_neg hcur] at hd
        rcases List.mem_append.mp hd with hd1 | hd2
        · cases hj : joinStrip cur with
          | none => rw [hj] at hd1; cases hd1
          | some t =>
            rw [hj] at hd1
            simp at hd1
            subst hd1
            have ht : d = stripL cur.flatten := by
              simp only [joinStrip] at hj
              split at hj
              · cases hj
              · exact (Option.some.inj hj).symm
            rw [ht]
            refine (stripL_substr _).trans ?_
            exact (List.prefix_append cur.flatten _).isInfix.trans h
        · refine ih _ _ ?_ d hd2
          obtain ⟨pre, hpre⟩ := popLoop_suffix size overlap s.length cur total
          refine List.IsInfix.trans ?_ h
          apply List.IsSuffix.isInfix
          have hflat : cur.flatten =
              pre.flatten ++ (popLoop size overlap s.length cur total).1.flatten := by
            conv_lhs => rw [← hpre]
            rw [List.flatten_append]
          rw [hflat]
          simp only [List.flatten_append, List.flatten_cons, List.flatten_nil,
            List.append_nil, List.append_assoc]
          exact List.suffix_append _ _
    · rw [if_neg hov] at hd
      refine ih (cur ++ [s]) _ ?_ d hd
      simpa [List.flatten_append, List.append_assoc] using h

theorem processSplits_substr (size overlap : Nat) (recur : List Char → List (List Char))
    (T : List Char) (hrec : ∀ s, ∀ c ∈ recur s, c <:+: s) :
    ∀ (splits good : List (List Char)),
      (good.flatten ++ splits.flatten) <:+: T →
      ∀ c ∈ processSplits size overlap recur splits good, c <:+: T := by
  intro splits
  induction splits with
  | nil =>
    intro good h c hc
    simp only [processSplits] at hc
    by_cases hg : good.isEmpty
    · rw [if_pos hg] at hc; cases hc
    · rw [if_neg hg] at hc
      refine mergeAux_substr size overlap T good [] 0 ?_ c hc
      simpa using h
  | cons s rest ih =>
    intro good h c hc
    simp only [processSplits] at hc
    have hsT : s <:+: T := by
      refine List.IsInfix.trans ⟨good.flatten, rest.flatten, ?_⟩ h
      simp [List.append_assoc]
    by_cases hlen : s.length < size
    · rw [if_pos hlen] at hc
      refine ih (good ++ [s]) ?_ c hc
      simpa [List.flatten_append, List.append_assoc] using h
    · rw [if_neg hlen] at hc
      rcases List.mem_append.mp hc with hc1 | hc3
      · rcases List.mem_append.mp hc1 with hc1 | hc2
        · by_cases hg : good.isEmpty
          · rw [if_pos hg] at hc1; cases hc1
          · rw [if_neg hg] at hc1
            refine mergeAux_substr size overlap T good [] 0 ?_ c hc1
            simp only [List.flatten_nil, List.nil_append]
            exact (List.prefix_append good.flatten _).isInfix.trans h
        · exact (hrec s c hc2).trans hsT
      · refine ih [] ?_ c hc3
        simp only [List.flatten_nil, List.nil_append]
        refine List.IsSuffix.isInfix ?_ |>.trans h
        exact (List.suffix_append s _).trans (List.suffix_append good.flatten _)

theorem splitTextFuel_substr (size overlap : Nat) :
    ∀ (fuel : Nat) (seps : List (List Char)) (text : List Char),
      ∀ c ∈ splitTextFuel size overlap fuel seps text, c <:+: text := by
  intro fuel
  induction fuel with
  | zero =>
    intro seps text c hc
    simp only [splitTextFuel, List.mem_singleton] at hc
    subst hc
    exact List.infix_refl _
  | succ fuel ih =>
    intro seps text c hc
    simp only [splitTextFuel] at hc
    refine processSplits_substr size overlap _ text ?_ _ [] ?_ c hc
    · intro s c' hc'
      by_cases hp : (chooseSep (lastD seps) text seps).2.isEmpty
      · rw [if_pos hp] at hc'
        simp only [List.mem_singleton] at hc'
        subst hc'
        exact List.infix_refl _
      · rw [if_neg hp] at hc'
        exact ih _ s c' hc'
    · rw [List.flatten_nil, List.nil_append, splitWithSep_flatten]

/-- Claim C2 (counterexample): for the same unit as `c1_counterexample`,
concatenating the chunks' non-overlapping portions (each chunk after the
first with its first chunk_overlap = 3 characters removed) does not
reconstruct the original content: the splitter strips boundary whitespace
and does not place an exact 3-character overlap. -/
theorem c2_counterexample :
    3 < 10 ∧
    (split_docs 10 3 [cexUnit]).map TDoc.page_content =
      ["aaaa bbbb".toList, "cccc dddd".toList, "eeee".toList] ∧
    ¬("aaaa bbbb".toList ++ ("cccc dddd".toList.drop 3) ++ ("eeee".toList.drop 3) =
      cexText) :=
  ⟨by decide, by decide, by decide⟩

/-- C2 (amended): the round-trip reconstruction fails
(`c2_counterexample`); what does hold is that every chunk `split_docs`
produces from a TextUnit is a contiguous substring of that unit's content —
chunking only duplicates overlapped text and drops boundary whitespace, and
never reorders or fabricates text. -/
theorem c2_chunk_substring {μ : Type} (size overlap : Nat) (unit : TDoc μ) :
    ∀ c ∈ split_docs size overlap [unit], c.page_content <:+: unit.page_content := by
  intro c hc
  simp only [split_docs, List.map, List.flatten, List.append_nil] at hc
  obtain ⟨t, ht, rfl⟩ := List.mem_map.mp hc
  rw [splitText] at ht
  exact splitTextFuel_substr size overlap _ _ _ t ht

theorem c2_witness :
    (TDoc.mk ("cccc dddd".toList) () : TDoc Unit).page_content <:+: cexUnit.page_content :=
  c2_chunk_substring 10 3 cexUnit _ (by decide)

/-! Embedding of `build_citations` (src/app/utils/citations.py).  Metadata
values are Python scalars; the function reads `source`, `page` and `chunk_id`
from each retrieved document's metadata and deduplicates by the rendered
string key `f"{source}:{meta.get('page', 'none')}"`.  The Python dict
`unique_sources` is modelled as an association list with insert-or-
replace-in-place semantics, which is exactly the ordering behaviour of
Python dicts. -/

/-- A Python scalar metadata value. -/
inductive PyVal where
  | str (s : List Char)
  | int (n : Int)
deriving DecidableEq, Inhabited

/-- Python `str()` of a scalar, as used inside the f-string key. -/
def pyRender : PyVal → List Char
  | .str s => s
  | .int n => (toString n).toList

/-- Python truthiness of a scalar (`if not source`). -/
def pyTruthy : PyVal → Bool
  | .str s => !s.isEmpty
  | .int n => n != 0

/-- `meta.get("source")` filtered through `if not source: continue`. -/
def truthyOpt : Option PyVal → Option PyVal
  | none => none
  | some v => if pyTruthy v then some v else none

/-- A retrieved chunk as `build_citations` sees it: its raw content and the
three metadata fields the function reads. -/
structure CDoc where
  page_content : List Char
  source : Option PyVal
  page : Option PyVal
  chunk_id : Option PyVal
deriving DecidableEq, Inhabited

/-- The dedup key `f"{source}:{meta.get('page', 'none')}"`. -/
def mkKey (src : PyVal) (page : Option PyVal) : List Char :=
  pyRender src ++ [':'] ++ (match page with
    | some v => pyRender v
    | none => "none".toList)

/-- The snippet: content truncated to 240 characters plus an ellipsis when
longer than 240, the raw content otherwise. -/
def snippetOf (content : List Char) : List Char :=
  if 240 < content.length then content.take 240 ++ ['…'] else content

/-- One value of the `unique_sources` dict (the `content` field is the
temporary field deleted before returning). -/
structure CEntry where
  source : PyVal
  page : Option PyVal
  chunk_id : Option PyVal
  content : List Char
  snippet : List Char
deriving DecidableEq, Inhabited

/-- A returned citation. -/
structure Citation where
  source : PyVal
  page : Option PyVal
  chunk_id : Option PyVal
  snippet : List Char
deriving DecidableEq, Inhabited

/-- The dict value built from a chunk. -/
def entryOfDoc (d : CDoc) (src : PyVal) : CEntry :=
  { source := src, page := d.page, chunk_id := d.chunk_id,
    content := d.page_content, snippet := snippetOf d.page_content }

/-- Python dict lookup on an association list. -/
def dictGet (m : List (List Char × CEntry)) (k : List Char) : Option CEntry :=
  match m with
  | [] => none
  | kv :: rest => if kv.1 = k then some kv.2 else dictGet rest k

/-- Python dict assignment: replace in place if present, append if new. -/
def dictSet (m : List (List Char × CEntry)) (k : List Char) (v : CEntry) :
    List (List Char × CEntry) :=
  match m with
  | [] => [(k, v)]
  | kv :: rest => if kv.1 = k then (k, v) :: rest else kv :: dictSet rest k v

/-- The body of the first-pass loop of `build_citations` for one chunk:
skip it when it has no truthy source; otherwise store its entry under its
key when the key is new or the chunk's raw content is strictly longer than
the stored one. -/
def citeStep (m : List (List Char × CEntry)) (d : CDoc) : List (List Char × CEntry) :=
  match truthyOpt d.source with
  | none => m
  | some src =>
    match dictGet m (mkKey src d.page) with
    | none => dictSet m (mkKey src d.page) (entryOfDoc d src)
    | some e =>
      if e.content.length < d.page_content.length then
        dictSet m (mkKey src d.page) (entryOfDoc d src)
      else m

/-- The first pass of `build_citations`: scan the retrieved chunks in order. -/
def citePass : List CDoc → List (List Char × CEntry) → List (List Char × CEntry)
  | [], m => m
  | d :: rest, m => citePass rest (citeStep m d)

/-- Drop the temporary `content` field. -/
def citeOfEntry (e : CEntry) : Citation :=
  { source := e.source, page := e.page, chunk_id := e.chunk_id, snippet := e.snippet }

/-- `build_citations` (src/app/utils/citations.py). -/
def build_citations (docs : List CDoc) : List Citation :=
  (citePass docs []).map (fun kv => citeOfEntry kv.2)

/-! Reference formulations used to state the citation claims. -/

/-- The dedup key of a chunk, when it has a truthy source. -/
def keyOfDoc (d : CDoc) : Option (List Char) :=
  (truthyOpt d.source).map (fun s => mkKey s d.page)

/-- The keys of the chunks that are not skipped, in retrieval order. -/
def validKeys (docs : List CDoc) : List (List Char) := docs.filterMap keyOfDoc

/-- First-seen-order deduplication (accumulating the keys already seen). -/
def dedupNew (seen : List (List Char)) : List (List Char) → List (List Char)
  | [] => []
  | k :: ks => if k ∈ seen then dedupNew seen ks else k :: dedupNew (k :: seen) ks

/-- First-seen-order deduplication. -/
def seenDedup (l : List (List Char)) : List (List Char) := dedupNew [] l

/-- One step of the "winning chunk" selection for a key: replace the
candidate only when the new chunk has strictly longer raw content, so ties
keep the earlier chunk. -/
def bestStep (k : List Char) (acc : Option CDoc) (d : CDoc) : Option CDoc :=
  if keyOfDoc d = some k then
    match acc with
    | none => some d
    | some w => if w.page_content.length < d.page_content.length then some d else acc
  else acc

/-- The winning chunk for a key: the first-seen chunk of maximal raw content
length among the chunks with that key. -/
def bestFor (docs : List CDoc) (k : List Char) : Option CDoc :=
  docs.foldl (bestStep k) none

/-- The citation the winning chunk of a key gives rise to. -/
def citeFromBest (docs : List CDoc) (k : List Char) : Citation :=
  match bestFor docs k with
  | some d =>
    match truthyOpt d.source with
    | some src => citeOfEntry (entryOfDoc d src)
    | none => { source := PyVal.str [], page := none, chunk_id := none, snippet := [] }
  | none => { source := PyVal.str [], page := none, chunk_id := none, snippet := [] }

/-- First counterexample document: source "a:1", no page. -/
def cDoc1 : CDoc :=
  { page_content := [Char.ofNat 120],
    source := some (PyVal.str ('a' :: [':', '1'])), page := none, chunk_id := none }

/-- Second counterexample document: source "a", page "1:none". -/
def cDoc2 : CDoc :=
  { page_content := [Char.ofNat 121, Char.ofNat 121],
    source := some (PyVal.str ['a']),
    page := some (PyVal.str [ '1', ':', 'n', 'o', 'n', 'e']), chunk_id := none }

/-- Claim C3 (counterexample): `cDoc1` and `cDoc2` have distinct
(source, page) pairs and both carry a truthy source, yet their rendered keys
"a:1" + ":" + "none" and "a" + ":" + "1:none" coincide, so `build_citations`
returns a single citation (for `cDoc2`, whose content is longer) and no
citation at all for `cDoc1`'s pair — not one citation per distinct
(source, page) pair in first-seen order. -/
theorem c3_counterexample :
    truthyOpt cDoc1.source ≠ none ∧ truthyOpt cDoc2.source ≠ none ∧
    (cDoc1.source, cDoc1.page) ≠ (cDoc2.source, cDoc2.page) ∧
    (build_citations [cDoc1, cDoc2]).map Citation.source = [PyVal.str ['a']] :=
  ⟨by decide, by decide, by decide, by decide⟩

/-! Characterization of `build_citations`: one citation per distinct rendered
key, in first-seen key order, built from the winning chunk of that key. -/

/-- Keys of the dict, in insertion order. -/
def dictKeys (m : List (List Char × CEntry)) : List (List Char) := m.map Prod.fst

/-- The dict entry a chunk would contribute, when it is not skipped. -/
def entryOfD (d : CDoc) : Option CEntry := (truthyOpt d.source).map (entryOfDoc d)

/-- The effect of one chunk on the dict entry stored at a fixed key. -/
def entryStep (k : List Char) (acc : Option CEntry) (d : CDoc) : Option CEntry :=
  match truthyOpt d.source with
  | none => acc
  | some src =>
    if mkKey src d.page = k then
      match acc with
      | none => some (entryOfDoc d src)
      | some e =>
        if e.content.length < d.page_content.length then some (entryOfDoc d src) else acc
    else acc

/-- The dict entry at a fixed key after scanning a chunk list. -/
def entryFold (acc : Option CEntry) (docs : List CDoc) (k : List Char) : Option CEntry :=
  docs.foldl (entryStep k) acc

theorem dictGet_dictSet (k k' : List Char) (v : CEntry) :
    ∀ m : List (List Char × CEntry),
      dictGet (dictSet m k v) k' = if k' = k then some v else dictGet m k' := by
  intro m
  induction m with
  | nil =>
    show (if k = k' then some v else dictGet [] k') = _
    by_cases h : k' = k
    · subst h; simp
    · rw [if_neg (fun hh => h hh.symm), if_neg h]
  | cons kv rest ih =>
    show dictGet (if kv.1 = k then (k, v) :: rest else kv :: dictSet rest k v) k' = _
    by_cases h : kv.1 = k
    · rw [if_pos h]
      show (if k = k' then some v else dictGet rest k') = _
      by_cases h2 : k' = k
      · subst h2; simp
      · rw [if_neg (fun hh => h2 hh.symm), if_neg h2]
        show dictGet rest k' = if kv.1 = k' then some kv.2 else dictGet rest k'
        rw [if_neg (fun hh : kv.1 = k' => h2 ((h.symm.trans hh).symm))]
    · rw [if_neg h]
      show (if kv.1 = k' then some kv.2 else dictGet (dictSet rest k v) k') = _
      by_cases h2 : kv.1 = k'
      · rw [if_pos h2, if_neg (fun hh : k' = k => h (h2.trans hh))]
        rw [dictGet, if_pos h2]
      · rw [if_neg h2, ih]
        by_cases h3 : k' = k
        · rw [if_pos h3, if_pos h3]
        · rw [if_neg h3, if_neg h3, dictGet, if_neg h2]

theorem dictGet_none_iff (k : List Char) :
    ∀ m : List (List Char × CEntry), dictGet m k = none ↔ k ∉ dictKeys m := by
  intro m
  induction m with
  | nil => simp [dictGet, dictKeys]
  | cons kv rest ih =>
    simp only [dictGet, dictKeys, List.map_cons, List.mem_cons]
    by_cases h : kv.1 = k
    · rw [if_pos h]
      simp [h]
    · rw [if_neg h]
      simp only [dictKeys] at ih
      rw [ih]
      constructor
      · intro hh hmem
        rcases hmem with hmem | hmem
        · exact h hmem.symm
        · exact hh hmem
      · intro hh hmem
        exact hh (Or.inr hmem)

theorem dictKeys_dictSet (k : List Char) (v : CEntry) :
    ∀ m : List (List Char × CEntry),
      dictKeys (dictSet m k v) =
        if k ∈ dictKeys m then dictKeys m else dictKeys m ++ [k] := by
  intro m
  induction m with
  | nil => simp [dictSet, dictKeys]
  | cons kv rest ih =>
    show dictKeys (if kv.1 = k then (k, v) :: rest else kv :: dictSet rest k v) = _
    by_cases h : kv.1 = k
    · rw [if_pos h]
      have hmem : k ∈ dictKeys (kv :: rest) := by
        simp [dictKeys, ← h]
      rw [if_pos hmem]
      simp [dictKeys, h]
    · rw [if_neg h]
      by_cases h2 : k ∈ dictKeys rest
      · have hmem : k ∈ dictKeys (kv :: rest) := by
          simp only [dictKeys, List.map_cons, List.mem_cons]
          exact Or.inr (by simpa [dictKeys] using h2)
        rw [if_pos hmem]
        simp only [dictKeys, List.map_cons]
        have := ih
        rw [if_pos h2] at this
        simp only [dictKeys] at this
        rw [this]
      · have hmem : k ∉ dictKeys (kv :: rest) := by
          simp only [dictKeys, List.map_cons, List.mem_cons]
          intro hh
          rcases hh with hh | hh
          · exact h hh.symm
          · exact h2 (by simpa [dictKeys] using hh)
        rw [if_neg hmem]
        simp only [dictKeys, List.map_cons]
        have := ih
        rw [if_neg h2] at this
        simp only [dictKeys] at this
        rw [this]
        rfl

theorem dictGet_citeStep (k : List Char) (m : List (List Char × CEntry)) (d : CDoc) :
    dictGet (citeStep m d) k = entryStep k (dictGet m k) d := by
  cases htr : truthyOpt d.source with
  | none => simp [citeStep, entryStep, htr]
  | some src =>
    by_cases hk : mkKey src d.page = k
    · subst hk
      cases hg : dictGet m (mkKey src d.page) with
      | none =>
        simp only [citeStep, htr, hg]
        rw [dictGet_dictSet, if_pos rfl]
        simp [entryStep, htr, hg]
      | some e =>
        by_cases hlen : e.content.length < d.page_content.length
        · simp only [citeStep, htr, hg, if_pos hlen]
          rw [dictGet_dictSet, if_pos rfl]
          simp [entryStep, htr, hg, hlen]
        · simp only [citeStep, htr, hg, if_neg hlen]
          simp [entryStep, htr, hg, hlen]
    · have hstep : entryStep k (dictGet m k) d = dictGet m k := by
        simp [entryStep, htr, hk]
      rw [hstep]
      cases hg : dictGet m (mkKey src d.page) with
      | none =>
        simp only [citeStep, htr, hg]
        rw [dictGet_dictSet, if_neg (fun hh => hk hh.symm)]
      | some e =>
        by_cases hlen : e.content.length < d.page_content.length
        · simp only [citeStep, htr, hg, if_pos hlen]
          rw [dictGet_dictSet, if_neg (fun hh => hk hh.symm)]
        · simp only [citeStep, htr, hg, if_neg hlen]

theorem citePass_get (k : List Char) :
    ∀ (docs : List CDoc) (m : List (List Char × CEntry)),
      dictGet (citePass docs m) k = entryFold (dictGet m k) docs k := by
  intro docs
  induction docs with
  | nil => intro m; rfl
  | cons d rest ih =>
    intro m
    show dictGet (citePass rest (citeStep m d)) k = _
    rw [ih, dictGet_citeStep]
    rfl

theorem dedupNew_congr :
    ∀ (l seen₁ seen₂ : List (List Char)), (∀ x, x ∈ seen₁ ↔ x ∈ seen₂) →
      dedupNew seen₁ l = dedupNew seen₂ l := by
  intro l
  induction l with
  | nil => intro s1 s2 _; rfl
  | cons k ks ih =>
    intro s1 s2 h
    simp only [dedupNew]
    by_cases hk : k ∈ s1
    · rw [if_pos hk, if_pos ((h k).mp hk)]
      exact ih s1 s2 h
    · rw [if_neg hk, if_neg (fun hh => hk ((h k).mpr hh))]
      rw [ih (k :: s1) (k :: s2) ?_]
      intro x
      simp [h x]

theorem dictKeys_citeStep_none (m : List (List Char × CEntry)) (d : CDoc)
    (hkd : keyOfDoc d = none) : dictKeys (citeStep m d) = dictKeys m := by
  cases htr : truthyOpt d.source with
  | none => simp [citeStep, htr]
  | some src => simp [keyOfDoc, htr] at hkd

theorem dictKeys_citeStep_some (m : List (List Char × CEntry)) (d : CDoc) (kd : List Char)
    (hkd : keyOfDoc d = some kd) :
    dictKeys (citeStep m d) = if kd ∈ dictKeys m then dictKeys m else dictKeys m ++ [kd] := by
  cases htr : truthyOpt d.source with
  | none => simp [keyOfDoc, htr] at hkd
  | some src =>
    have hk : mkKey src d.page = kd := by
      simp [keyOfDoc, htr] at hkd
      exact hkd
    subst hk
    cases hg : dictGet m (mkKey src d.page) with
    | none =>
      simp only [citeStep, htr, hg]
      rw [dictKeys_dictSet]
    | some e =>
      have hold : mkKey src d.page ∈ dictKeys m := by
        by_contra hh
        rw [← dictGet_none_iff] at hh
        rw [hg] at hh
        cases hh
      by_cases hlen : e.content.length < d.page_content.length
      · simp only [citeStep, htr, hg, if_pos hlen]
        rw [dictKeys_dictSet]
      · simp only [citeStep, htr, hg, if_neg hlen]
        rw [if_pos hold]

theorem citePass_keys :
    ∀ (docs : List CDoc) (m : List (List Char × CEntry)),
      dictKeys (citePass docs m) = dictKeys m ++ dedupNew (dictKeys m) (validKeys docs) := by
  intro docs
  induction docs with
  | nil => intro m; simp [citePass, validKeys, dedupNew]
  | cons d rest ih =>
    intro m
    show dictKeys (citePass rest (citeStep m d)) = _
    rw [ih]
    cases hkd : keyOfDoc d with
    | none =>
      have hks : dictKeys (citeStep m d) = dictKeys m := dictKeys_citeStep_none m d hkd
      have hvk : validKeys (d :: rest) = validKeys rest := by
        simp [validKeys, List.filterMap_cons, hkd]
      rw [hks, hvk]
    | some kd =>
      have hvk : validKeys (d :: rest) = kd :: validKeys rest := by
        simp [validKeys, List.filterMap_cons, hkd]
      rw [hvk]
      by_cases hmem : kd ∈ dictKeys m
      · have hks : dictKeys (citeStep m d) = dictKeys m := by
          rw [dictKeys_citeStep_some m d kd hkd, if_pos hmem]
        rw [hks]
        simp only [dedupNew, if_pos hmem]
      · have hks : dictKeys (citeStep m d) = dictKeys m ++ [kd] := by
          rw [dictKeys_citeStep_some m d kd hkd, if_neg hmem]
        rw [hks]
        simp only [dedupNew, if_neg hmem]
        rw [List.append_assoc]
        congr 1
        show kd :: dedupNew (dictKeys m ++ [kd]) (validKeys rest) =
          kd :: dedupNew (kd :: dictKeys m) (validKeys rest)
        congr 1
        refine dedupNew_congr _ _ _ ?_
        intro x
        simp only [List.mem_append, List.mem_cons, List.not_mem_nil, or_false]
        exact or_comm


theorem entryStep_bestStep (k : List Char) (acc : Option CDoc) (d : CDoc)
    (hacc : ∀ w, acc = some w → keyOfDoc w = some k) :
    entryStep k (acc.bind entryOfD) d = (bestStep k acc d).bind entryOfD := by
  cases htr : truthyOpt d.source with
  | none =>
    have hkd : keyOfDoc d ≠ some k := by simp [keyOfDoc, htr]
    simp [entryStep, htr, bestStep, hkd]
  | some src =>
    by_cases hk : mkKey src d.page = k
    · have hkd : keyOfDoc d = some k := by simp [keyOfDoc, htr, hk]
      cases acc with
      | none => simp [entryStep, htr, hk, bestStep, hkd, entryOfD]
      | some w =>
        have hw := hacc w rfl
        have hws : ∃ ws, truthyOpt w.source = some ws := by
          cases htw : truthyOpt w.source with
          | none => simp [keyOfDoc, htw] at hw
          | some ws => exact ⟨ws, rfl⟩
        obtain ⟨ws, htw⟩ := hws
        by_cases hlen : w.page_content.length < d.page_content.length
        · simp [entryStep, htr, hk, bestStep, hkd, entryOfD, entryOfDoc, htw, hlen]
        · simp [entryStep, htr, hk, bestStep, hkd, entryOfD, entryOfDoc, htw, hlen]
    · have hkd : keyOfDoc d ≠ some k := by simp [keyOfDoc, htr, hk]
      simp [entryStep, htr, hk, bestStep, hkd]

theorem bestStep_key (k : List Char) (acc : Option CDoc) (d : CDoc)
    (hacc : ∀ w, acc = some w → keyOfDoc w = some k) :
    ∀ w, bestStep k acc d = some w → keyOfDoc w = some k := by
  intro w hw
  by_cases hkd : keyOfDoc d = some k
  · cases acc with
    | none =>
      simp [bestStep, hkd] at hw
      rw [← hw]
      exact hkd
    | some w0 =>
      by_cases hlen : w0.page_content.length < d.page_content.length
      · simp [bestStep, hkd, hlen] at hw
        rw [← hw]
        exact hkd
      · simp [bestStep, hkd, hlen] at hw
        rw [← hw]
        exact hacc w0 rfl
  · simp [bestStep, hkd] at hw
    exact hacc w hw

theorem entryFold_bestFor (k : List Char) :
    ∀ (docs : List CDoc) (acc : Option CDoc),
      (∀ w, acc = some w → keyOfDoc w = some k) →
      entryFold (acc.bind entryOfD) docs k = (docs.foldl (bestStep k) acc).bind entryOfD := by
  intro docs
  induction docs with
  | nil => intro acc _; rfl
  | cons d rest ih =>
    intro acc hacc
    show entryFold (entryStep k (acc.bind entryOfD) d) rest k = _
    rw [entryStep_bestStep k acc d hacc]
    exact ih (bestStep k acc d) (bestStep_key k acc d hacc)

theorem bestStep_cases (k : List Char) (acc : Option CDoc) (d : CDoc) :
    bestStep k acc d = acc ∨ bestStep k acc d = some d := by
  by_cases hkd : keyOfDoc d = some k
  · cases acc with
    | none => exact Or.inr (by simp [bestStep, hkd])
    | some w =>
      by_cases hlen : w.page_content.length < d.page_content.length
      · exact Or.inr (by simp [bestStep, hkd, hlen])
      · exact Or.inl (by simp [bestStep, hkd, hlen])
  · exact Or.inl (by simp [bestStep, hkd])

theorem foldl_bestStep_some (k : List Char) :
    ∀ (docs : List CDoc) (acc : Option CDoc) (d : CDoc),
      docs.foldl (bestStep k) acc = some d → acc = some d ∨ d ∈ docs := by
  intro docs
  induction docs with
  | nil => intro acc d h; exact Or.inl h
  | cons e rest ih =>
    intro acc d h
    have h' : rest.foldl (bestStep k) (bestStep k acc e) = some d := h
    rcases ih _ d h' with h1 | h1
    · rcases bestStep_cases k acc e with h2 | h2
      · exact Or.inl (h2 ▸ h1)
      · rw [h2] at h1
        obtain rfl := Option.some.inj h1
        exact Or.inr (List.mem_cons_self e rest)
    · exact Or.inr (List.mem_cons_of_mem _ h1)

theorem foldl_bestStep_key (k : List Char) :
    ∀ (docs : List CDoc) (acc : Option CDoc),
      (∀ w, acc = some w → keyOfDoc w = some k) →
      ∀ d, docs.foldl (bestStep k) acc = some d → keyOfDoc d = some k := by
  intro docs
  induction docs with
  | nil => intro acc hacc d h; exact hacc d h
  | cons e rest ih =>
    intro acc hacc d h
    exact ih _ (bestStep_key k acc e hacc) d h

theorem foldl_bestStep_mono (k : List Char) :
    ∀ (docs : List CDoc) (w d : CDoc),
      docs.foldl (bestStep k) (some w) = some d →
      w.page_content.length ≤ d.page_content.length := by
  intro docs
  induction docs with
  | nil => intro w d h; obtain rfl := Option.some.inj h; exact Nat.le_refl _
  | cons e rest ih =>
    intro w d h
    have h' : rest.foldl (bestStep k) (bestStep k (some w) e) = some d := h
    by_cases hkd : keyOfDoc e = some k
    · by_cases hlen : w.page_content.length < e.page_content.length
      · have h2 : bestStep k (some w) e = some e := by simp [bestStep, hkd, hlen]
        rw [h2] at h'
        exact Nat.le_of_lt (Nat.lt_of_lt_of_le hlen (ih e d h'))
      · have h2 : bestStep k (some w) e = some w := by simp [bestStep, hkd, hlen]
        rw [h2] at h'
        exact ih w d h'
    · have h2 : bestStep k (some w) e = some w := by simp [bestStep, hkd]
      rw [h2] at h'
      exact ih w d h'

theorem foldl_bestStep_max (k : List Char) :
    ∀ (docs : List CDoc) (acc : Option CDoc) (d : CDoc),
      docs.foldl (bestStep k) acc = some d →
      ∀ x ∈ docs, keyOfDoc x = some k → x.page_content.length ≤ d.page_content.length := by
  intro docs
  induction docs with
  | nil => intro acc d _ x hx; cases hx
  | cons e rest ih =>
    intro acc d h x hx hkx
    have h' : rest.foldl (bestStep k) (bestStep k acc e) = some d := h
    rcases List.mem_cons.mp hx with rfl | hx2
    · have hstep : ∃ w', bestStep k acc x = some w' ∧
          x.page_content.length ≤ w'.page_content.length := by
        cases acc with
        | none => exact ⟨x, by simp [bestStep, hkx], Nat.le_refl _⟩
        | some w0 =>
          by_cases hlen : w0.page_content.length < x.page_content.length
          · exact ⟨x, by simp [bestStep, hkx, hlen], Nat.le_refl _⟩
          · exact ⟨w0, by simp [bestStep, hkx, hlen], Nat.le_of_not_lt hlen⟩
      obtain ⟨w', hw', hle⟩ := hstep
      rw [hw'] at h'
      exact Nat.le_trans hle (foldl_bestStep_mono k rest w' d h')
    · exact ih _ d h' x hx2 hkx

theorem bestFor_eq_none (k : List Char) :
    ∀ (docs : List CDoc) (acc : Option CDoc), docs.foldl (bestStep k) acc = none →
      acc = none ∧ ∀ x ∈ docs, keyOfDoc x ≠ some k := by
  intro docs
  induction docs with
  | nil => intro acc h; exact ⟨h, by intro x hx; cases hx⟩
  | cons e rest ih =>
    intro acc h
    have h' : rest.foldl (bestStep k) (bestStep k acc e) = none := h
    obtain ⟨h1, h2⟩ := ih _ h'
    have hke : keyOfDoc e ≠ some k := by
      intro hh
      cases acc with
      | none => simp [bestStep, hh] at h1
      | some w =>
        by_cases hlen : w.page_content.length < e.page_content.length
        · simp [bestStep, hh, hlen] at h1
        · simp [bestStep, hh, hlen] at h1
    have hacc : acc = none := by
      have h3 : bestStep k acc e = acc := by simp [bestStep, hke]
      rw [h3] at h1
      exact h1
    refine ⟨hacc, ?_⟩
    intro x hx
    rcases List.mem_cons.mp hx with rfl | hx2
    · exact hke
    · exact h2 x hx2

theorem dedupNew_nodup :
    ∀ (l seen : List (List Char)),
      (dedupNew seen l).Nodup ∧ ∀ x ∈ dedupNew seen l, x ∉ seen := by
  intro l
  induction l with
  | nil => intro seen; exact ⟨List.nodup_nil, by intro x hx; cases hx⟩
  | cons k ks ih =>
    intro seen
    simp only [dedupNew]
    by_cases hk : k ∈ seen
    · rw [if_pos hk]; exact ih seen
    · rw [if_neg hk]
      obtain ⟨hnd, hns⟩ := ih (k :: seen)
      constructor
      · refine List.nodup_cons.mpr ⟨?_, hnd⟩
        intro hmem
        exact hns k hmem (List.mem_cons_self k seen)
      · intro x hx
        rcases List.mem_cons.mp hx with rfl | hx2
        · exact hk
        · intro hxs
          exact hns x hx2 (List.mem_cons_of_mem _ hxs)

theorem dedupNew_subset :
    ∀ (l seen : List (List Char)) (x : List Char), x ∈ dedupNew seen l → x ∈ l := by
  intro l
  induction l with
  | nil => intro seen x hx; cases hx
  | cons k ks ih =>
    intro seen x hx
    simp only [dedupNew] at hx
    by_cases hk : k ∈ seen
    · rw [if_pos hk] at hx
      exact List.mem_cons_of_mem _ (ih seen x hx)
    · rw [if_neg hk] at hx
      rcases List.mem_cons.mp hx with rfl | hx2
      · exact List.mem_cons_self _ _
      · exact List.mem_cons_of_mem _ (ih (k :: seen) x hx2)

theorem assoc_map_eq (docs : List CDoc) :
    ∀ m : List (List Char × CEntry),
      (dictKeys m).Nodup →
      (∀ k ∈ dictKeys m, dictGet m k = (bestFor docs k).bind entryOfD) →
      m.map (fun kv => citeOfEntry kv.2) = (dictKeys m).map (citeFromBest docs) := by
  intro m
  induction m with
  | nil => intro _ _; rfl
  | cons kv rest ih =>
    obtain ⟨k0, e0⟩ := kv
    intro hnd hget
    have hnd2 : (k0 :: dictKeys rest).Nodup := by simpa [dictKeys] using hnd
    have hnd' := List.nodup_cons.mp hnd2
    have hget0 := hget k0 (by simp [dictKeys])
    have hg0 : dictGet ((k0, e0) :: rest) k0 = some e0 := by simp [dictGet]
    rw [hg0] at hget0
    have hcfb : citeFromBest docs k0 = citeOfEntry e0 := by
      cases hb : bestFor docs k0 with
      | none => rw [hb] at hget0; simp at hget0
      | some d =>
        rw [hb] at hget0
        cases htr : truthyOpt d.source with
        | none => simp [entryOfD, htr] at hget0
        | some src =>
          simp only [entryOfD, htr, Option.some_bind, Option.map_some] at hget0
          obtain rfl := Option.some.inj hget0
          simp [citeFromBest, hb, htr]
    show citeOfEntry e0 :: rest.map (fun kv => citeOfEntry kv.2) =
      citeFromBest docs k0 :: (dictKeys rest).map (citeFromBest docs)
    rw [hcfb]
    congr 1
    refine ih hnd'.2 ?_
    intro k hk
    have hne : ¬k0 = k := fun hh => hnd'.1 (hh ▸ hk)
    have hstep : dictGet ((k0, e0) :: rest) k = dictGet rest k := by
      show (if k0 = k then some e0 else dictGet rest k) = dictGet rest k
      rw [if_neg hne]
    rw [← hstep]
    refine hget k ?_
    simp only [dictKeys, List.map_cons, List.mem_cons]
    exact Or.inr (by simpa [dictKeys] using hk)

theorem build_citations_characterization (docs : List CDoc) :
    build_citations docs = (seenDedup (validKeys docs)).map (citeFromBest docs) := by
  unfold build_citations
  have hkeys : dictKeys (citePass docs []) = seenDedup (validKeys docs) := by
    have h := citePass_keys docs []
    simpa [dictKeys, seenDedup] using h
  rw [← hkeys]
  refine assoc_map_eq docs _ ?_ ?_
  · rw [hkeys]
    exact (dedupNew_nodup _ _).1
  · intro k _
    rw [citePass_get k docs []]
    exact entryFold_bestFor k docs none (by intro w hw; cases hw)

/-- C3 (amended): `build_citations` returns at most one Citation per distinct
rendered key string `source ++ ":" ++ (page or "none")`, in first-seen order
of each unique key; chunks whose metadata has no truthy source are skipped;
within a key, the Citation is built from the chunk with the longest raw
content, ties keeping the first seen.  Distinct (source, page) pairs whose
rendered keys coincide (e.g. a colon inside the source name,
`c3_counterexample`) are merged into a single citation. -/
theorem c3_citations_by_key (docs : List CDoc) :
    build_citations docs = (seenDedup (validKeys docs)).map (citeFromBest docs) :=
  build_citations_characterization docs

/-- C8 (confirmed): every Citation produced by `build_citations` carries the
snippet computed from its winning chunk's raw content: the full content when
it is at most 240 characters, and exactly the first 240 characters followed
by an ellipsis otherwise; the winner is a retrieved chunk with maximal raw
content length among those sharing its key, so the snippet is never
re-derived from a previously truncated snippet. -/
theorem c8_snippet (docs : List CDoc) (c : Citation) (hc : c ∈ build_citations docs) :
    ∃ d ∈ docs, ∃ src, truthyOpt d.source = some src ∧
      c.source = src ∧ c.page = d.page ∧ c.chunk_id = d.chunk_id ∧
      (∀ x ∈ docs, keyOfDoc x = keyOfDoc d →
        x.page_content.length ≤ d.page_content.length) ∧
      c.snippet = (if 240 < d.page_content.length then d.page_content.take 240 ++ ['…']
        else d.page_content) := by
  rw [build_citations_characterization] at hc
  obtain ⟨k, hk, rfl⟩ := List.mem_map.mp hc
  have hkv : k ∈ validKeys docs := dedupNew_subset _ _ k hk
  cases hb : bestFor docs k with
  | none =>
    exfalso
    obtain ⟨-, hnone⟩ := bestFor_eq_none k docs none hb
    obtain ⟨x, hx, hkx⟩ := List.mem_filterMap.mp hkv
    exact hnone x hx hkx
  | some d =>
    have hkd : keyOfDoc d = some k :=
      foldl_bestStep_key k docs none (by intro w hw; cases hw) d hb
    cases htr : truthyOpt d.source with
    | none => simp [keyOfDoc, htr] at hkd
    | some src =>
      have hmem : d ∈ docs := by
        rcases foldl_bestStep_some k docs none d hb with h1 | h1
        · cases h1
        · exact h1
      have hcfb : citeFromBest docs k = citeOfEntry (entryOfDoc d src) := by
        simp [citeFromBest, hb, htr]
      refine ⟨d, hmem, src, htr, ?_, ?_, ?_, ?_, ?_⟩
      · rw [hcfb]; rfl
      · rw [hcfb]; rfl
      · rw [hcfb]; rfl
      · intro x hx hkx
        rw [hkd] at hkx
        exact foldl_bestStep_max k docs none d hb x hx hkx
      · rw [hcfb]
        rfl

/-- Witness document for `c8_snippet`. -/
def w8doc : CDoc :=
  { page_content := ('h' :: ['i']),
    source := some (PyVal.str ['d']), page := none, chunk_id := some (PyVal.int 0) }

/-- Witness citation for `c8_snippet`. -/
def w8cit : Citation :=
  { source := PyVal.str ['d'], page := none, chunk_id := some (PyVal.int 0),
    snippet := ('h' :: ['i']) }

/-! Embedding of the metadata-enrichment loop of `load_file`
(src/app/utils/loaders.py).  The loader dispatch by extension performs file
I/O and is external; `load_file` here receives the documents the selected
loader returned and performs the merging the source does.  Python dicts are
modelled extensionally as functions `String → Option PyVal` (only lookups
and membership tests are performed on them). -/

/-- A Python dict of metadata, extensionally. -/
abbrev Meta := String → Option PyVal

/-- The empty dict. -/
def emptyMeta : Meta := fun _ => none

/-- `dict.update`: the right dict wins. -/
def mUpdate (m o : Meta) : Meta := fun k =>
  match o k with
  | some v => some v
  | none => m k

/-- `dict[key] = value`. -/
def mSet (m : Meta) (k : String) (v : PyVal) : Meta :=
  fun k' => if k' = k then some v else m k'

def kFilename : String := "filename"

def kFileType : String := "file_type"

def kChunkId : String := "chunk_id"

def kSource : String := "source"

def kOriginalFilename : String := "original_filename"

/-- The two path components `load_file` reads (`path.name`, `path.suffix`). -/
structure FPath where
  name : String
  suffix : String

/-- A document as returned by the dispatched loader. -/
structure RawDoc where
  page_content : List Char
  metadata : Meta

/-- `base_metadata`: the caller metadata (or `{}`) updated with the computed
`filename` and `file_type` fields. -/
def baseMeta (path : FPath) (metadata : Option Meta) : Meta :=
  mUpdate (metadata.getD emptyMeta) (fun k =>
    if k = kFilename then some (PyVal.str path.name.toList)
    else if k = kFileType then some (PyVal.str path.suffix.toLower.toList) else none)

/-- The per-document enrichment: copy the base, update with the loader's
document metadata, set `chunk_id`, then set `source` from
`original_filename` when that key is present and the file's name otherwise. -/
def enrichMeta (path : FPath) (base : Meta) (i : Nat) (loader : Meta) : Meta :=
  match (mSet (mUpdate base loader) kChunkId (PyVal.int i)) kOriginalFilename with
  | none =>
    mSet (mSet (mUpdate base loader) kChunkId (PyVal.int i)) kSource
      (PyVal.str path.name.toList)
  | some v => mSet (mSet (mUpdate base loader) kChunkId (PyVal.int i)) kSource v

/-- `enumerate(docs)` with an explicit start index. -/
def mapWithIdx {α β : Type} (f : Nat → α → β) : Nat → List α → List β
  | _, [] => []
  | i, a :: as => f i a :: mapWithIdx f (i + 1) as

/-- `load_file` (src/app/utils/loaders.py), given the loader's output. -/
def load_file (path : FPath) (metadata : Option Meta) (docs : List RawDoc) : List RawDoc :=
  mapWithIdx (fun i d =>
    { page_content := d.page_content,
      metadata := enrichMeta path (baseMeta path metadata) i d.metadata }) 0 docs

/-- The metadata merge exactly as claim C4 states it: caller metadata
(lowest), then loader metadata, then the computed `filename`, `file_type`,
`chunk_id` and `source`, with `source` taken from the caller-supplied
`original_filename` when present. -/
def claimC4Meta (path : FPath) (caller loader : Meta) (i : Nat) : Meta := fun k =>
  if k = kFilename then some (PyVal.str path.name.toList)
  else if k = kFileType then some (PyVal.str path.suffix.toLower.toList)
  else if k = kChunkId then some (PyVal.int i)
  else if k = kSource then
    some (match caller kOriginalFilename with
      | some v => v
      | none => PyVal.str path.name.toList)
  else
    match loader k with
    | some v => some v
    | none => caller k

/-- The metadata merge the code actually performs: caller metadata (lowest),
then the computed `filename` and `file_type`, then the loader metadata
(which therefore overrides `filename`/`file_type`), and finally the computed
`chunk_id` and `source`, with `source` taken from the merged
`original_filename` (loader over caller) when present. -/
def amendedC4Meta (path : FPath) (caller loader : Meta) (i : Nat) : Meta := fun k =>
  if k = kChunkId then some (PyVal.int i)
  else if k = kSource then
    some (match (match loader kOriginalFilename with
        | some v => some v
        | none => caller kOriginalFilename) with
      | some v => v
      | none => PyVal.str path.name.toList)
  else
    match loader k with
    | some v => some v
    | none =>
      if k = kFilename then some (PyVal.str path.name.toList)
      else if k = kFileType then some (PyVal.str path.suffix.toLower.toList)
      else caller k

/-- Loader-produced document for the C4 counterexample: its metadata carries
a `filename` key of its own. -/
def c4LoaderDoc : RawDoc :=
  { page_content := ('h' :: ['i']),
    metadata := fun k => if k = kFilename then some (PyVal.str ['w']) else none }

/-- Path for the C4 counterexample. -/
def c4Path : FPath := { name := "t.txt", suffix := ".txt" }

/-- Claim C4 (counterexample): when the dispatched loader returns a document
whose metadata already contains a `filename` key, the code's merge lets the
loader value override the computed `filename` (the loader metadata is merged
after the computed fields), while the claimed precedence would keep the
computed file name. -/
theorem c4_counterexample :
    ((load_file c4Path none [c4LoaderDoc]).map (fun d => d.metadata kFilename)) =
      [some (PyVal.str ['w'])] ∧
    claimC4Meta c4Path emptyMeta c4LoaderDoc.metadata 0 kFilename =
      some (PyVal.str ('t' :: ['.', 't', 'x', 't'])) ∧
    some (PyVal.str ['w']) ≠ some (PyVal.str ('t' :: ['.', 't', 'x', 't'])) :=
  ⟨by decide, by decide, by decide⟩

theorem mapWithIdx_congr {α β : Type} (f g : Nat → α → β) (h : ∀ i a, f i a = g i a) :
    ∀ (n : Nat) (l : List α), mapWithIdx f n l = mapWithIdx g n l := by
  intro n l
  induction l generalizing n with
  | nil => rfl
  | cons a as ih =>
    simp only [mapWithIdx]
    rw [h n a, ih (n + 1)]

theorem baseMeta_eq (path : FPath) (metadata : Option Meta) (k : String) :
    baseMeta path metadata k =
      (if k = kFilename then some (PyVal.str path.name.toList)
       else if k = kFileType then some (PyVal.str path.suffix.toLower.toList)
       else (metadata.getD emptyMeta) k) := by
  simp only [baseMeta, mUpdate]
  by_cases h1 : k = kFilename
  · simp [h1]
  · by_cases h2 : k = kFileType
    · subst h2
      have hne : ¬(kFileType = kFilename) := by decide
      simp [hne]
    · simp [h1, h2]

theorem enrichMeta_eq_amended (path : FPath) (metadata : Option Meta) (i : Nat)
    (loader : Meta) :
    enrichMeta path (baseMeta path metadata) i loader =
      amendedC4Meta path (metadata.getD emptyMeta) loader i := by
  have n1 : ¬(kOriginalFilename = kChunkId) := by decide
  have n2 : ¬(kOriginalFilename = kFilename) := by decide
  have n3 : ¬(kOriginalFilename = kFileType) := by decide
  have n4 : ¬(kSource = kChunkId) := by decide
  have horig :
      (mSet (mUpdate (baseMeta path metadata) loader) kChunkId (PyVal.int i))
          kOriginalFilename =
        (match loader kOriginalFilename with
          | some v => some v
          | none => (metadata.getD emptyMeta) kOriginalFilename) := by
    simp only [mSet, mUpdate]
    rw [if_neg n1]
    cases hl : loader kOriginalFilename with
    | none =>
      simp only []
      rw [baseMeta_eq, if_neg n2, if_neg n3]
    | some v => rfl
  funext k
  unfold enrichMeta
  rw [horig]
  by_cases hks : k = kSource
  · have hkc : ¬(k = kChunkId) := fun hh => n4 (hks ▸ hh)
    cases hl : loader kOriginalFilename with
    | none =>
      cases hc : (metadata.getD emptyMeta) kOriginalFilename with
      | none =>
        simp only [mSet, amendedC4Meta, if_pos hks, if_neg hkc, hl, hc]
      | some v =>
        simp only [mSet, amendedC4Meta, if_pos hks, if_neg hkc, hl, hc]
    | some v =>
      simp only [mSet, amendedC4Meta, if_pos hks, if_neg hkc, hl]
  · by_cases hkc : k = kChunkId
    · cases hl : loader kOriginalFilename with
      | none =>
        cases hc : (metadata.getD emptyMeta) kOriginalFilename with
        | none => simp only [mSet, amendedC4Meta, if_neg hks, if_pos hkc, hl, hc]
        | some v => simp only [mSet, amendedC4Meta, if_neg hks, if_pos hkc, hl, hc]
      | some v => simp only [mSet, amendedC4Meta, if_neg hks, if_pos hkc, hl]
    · have hrest : (mUpdate (baseMeta path metadata) loader) k =
          (match loader k with
            | some v => some v
            | none =>
              if k = kFilename then some (PyVal.str path.name.toList)
              else if k = kFileType then some (PyVal.str path.suffix.toLower.toList)
              else (metadata.getD emptyMeta) k) := by
        simp only [mUpdate]
        cases hlk : loader k with
        | none =>
          simp only []
          rw [baseMeta_eq]
        | some v => rfl
      cases hl : loader kOriginalFilename with
      | none =>
        cases hc : (metadata.getD emptyMeta) kOriginalFilename with
        | none =>
          simp only [mSet, amendedC4Meta, if_neg hks, if_neg hkc, hl, hc]
          rw [hrest]
        | some v =>
          simp only [mSet, amendedC4Meta, if_neg hks, if_neg hkc, hl, hc]
          rw [hrest]
      | some v =>
        simp only [mSet, amendedC4Meta, if_neg hks, if_neg hkc, hl]
        rw [hrest]

/-- C4 (amended): the metadata of every TextUnit produced by `load_file` is
merged with precedence (lowest to highest): caller-supplied metadata, then
the computed `filename` and `file_type`, then loader-specific metadata
(which therefore overrides computed `filename`/`file_type` when it carries
those keys, refuting the claimed order — `c4_counterexample`), then the
computed `chunk_id` (the unit's ordinal index) and `source`; `source` equals
the merged metadata's `original_filename` (loader over caller, in practice
the caller-supplied one) when present, otherwise the file's base name. -/
theorem c4_metadata_precedence (path : FPath) (metadata : Option Meta)
    (docs : List RawDoc) :
    load_file path metadata docs =
      mapWithIdx (fun i d =>
        { page_content := d.page_content,
          metadata := amendedC4Meta path (metadata.getD emptyMeta) d.metadata i }) 0 docs := by
  unfold load_file
  apply mapWithIdx_congr
  intro i d
  rw [enrichMeta_eq_amended]

theorem c8_witness :
    ∃ d ∈ [w8doc], ∃ src, truthyOpt d.source = some src ∧
      w8cit.source = src ∧ w8cit.page = d.page ∧ w8cit.chunk_id = d.chunk_id ∧
      (∀ x ∈ [w8doc], keyOfDoc x = keyOfDoc d →
        x.page_content.length ≤ d.page_content.length) ∧
      w8cit.snippet = (if 240 < d.page_content.length then d.page_content.take 240 ++ ['…']
        else d.page_content) :=
  c8_snippet [w8doc] w8cit (by decide)

/-! Embedding of the chat request path: the endpoint guard and parameter
handling of `chat` (src/app/main.py), `retrieve_context` and
`answer_question` (src/app/chains.py), and the in-memory session store. -/

/-- Python `str.split(sep)` without keeping separators (fuel-based; the
remainder shrinks at every occurrence, so `fuel = text.length` suffices). -/
def splitPlain (sep : List Char) : Nat → List Char → List (List Char)
  | 0, t => [t]
  | fuel + 1, t =>
    match breakOn sep t with
    | none => [t]
    | some (b, a) => b :: splitPlain sep fuel a

/-- `documents.split(",")`. -/
def python_split_commas (s : List Char) : List (List Char) :=
  splitPlain [','] s.length s

/-- The document-filter parsing in `chat`: `None` unless `documents` is
non-empty and not all whitespace, else split on commas, strip each entry and
drop the empty ones. -/
def parse_filter_docs (documents : Option (List Char)) : Option (List (List Char)) :=
  match documents with
  | none => none
  | some s =>
    if !s.isEmpty && !(stripL s).isEmpty then
      some (((python_split_commas s).map stripL).filter (fun e => !e.isEmpty))
    else none

/-- The parse the claim describes: split on commas, trim, drop empties
(empty list for an absent parameter). -/
def specParseEntries (documents : Option (List Char)) : List (List Char) :=
  match documents with
  | none => []
  | some s => ((python_split_commas s).map stripL).filter (fun e => !e.isEmpty)

/-- A stored chunk as the retrieval layer sees it. -/
structure SDoc where
  source : List Char
  content : List Char
deriving DecidableEq

/-- Modelled from the spec: the Vector Index Adapter (Chroma, external to the
repository).  `docs` is the stored chunk list already ordered by descending
semantic similarity to the query; `search` returns the top `k`, and with a
`source_filter` it returns the top `k` among the chunks whose `source`
metadata is a member of the given set (spec §4.3 and §6). -/
structure VStore where
  docs : List SDoc

/-- Modelled from the spec: `similarity_search` with the optional
`{"source": {"$in": filter}}` metadata filter. -/
def similaritySearch (store : VStore) (k : Nat) (srcFilter : Option (List (List Char))) :
    List SDoc :=
  match srcFilter with
  | none => store.docs.take k
  | some srcs => (store.docs.filter (fun d => decide (d.source ∈ srcs))).take k

/-- `retrieve_context` (src/app/chains.py): filtered search when
`filter_docs` is truthy (neither `None` nor the empty list), plain search
otherwise. -/
def retrieve_context (store : VStore) (k : Nat) (filterDocs : Option (List (List Char))) :
    List SDoc :=
  match filterDocs with
  | some l => if l.isEmpty then similaritySearch store k none else similaritySearch store k (some l)
  | none => similaritySearch store k none

/-- C5 (confirmed): the `documents` parameter is parsed by splitting on
commas, trimming each entry and dropping empty entries; an absent, empty or
all-empty-entries filter yields an unrestricted search; a non-empty filter
restricts retrieval to chunks whose source is a member of the filter,
regardless of the similarity rank of other chunks. -/
theorem c5_document_filtering (documents : Option (List Char)) (store : VStore) (k : Nat) :
    (∀ s, documents = some s → stripL s ≠ [] →
      parse_filter_docs documents = some (specParseEntries documents)) ∧
    (specParseEntries documents = [] →
      retrieve_context store k (parse_filter_docs documents) = store.docs.take k) ∧
    (∀ l, parse_filter_docs documents = some l → l ≠ [] →
      ∀ d ∈ retrieve_context store k (parse_filter_docs documents), d.source ∈ l) := by
  refine ⟨?_, ?_, ?_⟩
  · intro s hd hstrip
    subst hd
    have h1 : s.isEmpty = false := by
      cases s with
      | nil => exact absurd rfl hstrip
      | cons c cs => rfl
    have h2 : (stripL s).isEmpty = false := by
      cases hst : stripL s with
      | nil => exact absurd hst hstrip
      | cons c cs => rfl
    simp [parse_filter_docs, specParseEntries, h1, h2]
  · intro hempty
    cases documents with
    | none => rfl
    | some s =>
      simp only [specParseEntries] at hempty
      by_cases hg : (!s.isEmpty && !(stripL s).isEmpty) = true
      · simp [parse_filter_docs, hg, retrieve_context, hempty, similaritySearch]
      · simp [parse_filter_docs, hg, retrieve_context, similaritySearch]
  · intro l hpl hlne d hd
    rw [hpl] at hd
    have hle : l.isEmpty = false := by
      cases l with
      | nil => exact absurd rfl hlne
      | cons x xs => rfl
    simp only [retrieve_context, hle, Bool.false_eq_true, if_false] at hd
    simp only [similaritySearch] at hd
    have hmem := List.mem_of_mem_take hd
    have := (List.mem_filter.mp hmem).2
    exact of_decide_eq_true this

/-- Concrete `documents` parameter "a, ,b" for the C5 witness. -/
def w5docs : Option (List Char) := some ('a' :: [',', ' ', ',', 'b'])

/-- Concrete store for the C5 witness. -/
def w5store : VStore := VStore.mk [SDoc.mk ['b'] ['x'], SDoc.mk ['c'] ['y']]

theorem c5_witness :
    parse_filter_docs w5docs = some (['a'] :: [['b']]) ∧
    (SDoc.mk ['b'] ['x']).source ∈ ('a' :: ([] : List Char)) :: [['b']] :=
  ⟨by decide,
    (c5_document_filtering w5docs w5store 5).2.2 (['a'] :: [['b']]) (by decide) (by decide)
      (SDoc.mk ['b'] ['x']) (by decide)⟩

/-- The outcome of the `chat` endpoint guard and parameter handling
(src/app/main.py): either the request is rejected with HTTP 400 before
`answer_question` — and hence before any retrieval, embedding or generation
call — is reached, or `answer_question` is invoked with the computed `top_k`
and parsed document filter. -/
inductive ChatAction where
  | rejectEmpty : ChatAction
  | run (k : Int) (filterDocs : Option (List (List Char))) : ChatAction
deriving DecidableEq

/-- The `chat` endpoint (src/app/main.py) up to the `answer_question` call:
reject when the question is empty or whitespace-only after trimming,
otherwise compute `top_k = k or settings.max_context_docs` and the parsed
filter. -/
def chat_endpoint (question : List Char) (k : Option Int) (documents : Option (List Char))
    (maxContextDocs : Int) : ChatAction :=
  if (stripL question).isEmpty then ChatAction.rejectEmpty
  else
    ChatAction.run
      (match k with
        | none => maxContextDocs
        | some v => if v = 0 then maxContextDocs else v)
      (parse_filter_docs documents)

/-- C7 (confirmed): a question that is empty or whitespace-only after
trimming is rejected by the guard at the top of `chat`, before
`answer_question` — and with it every retrieval, embedding or generation
call — is reached; `ChatAction.rejectEmpty` carries no invocation. -/
theorem c7_empty_question_rejected (question : List Char) (k : Option Int)
    (documents : Option (List Char)) (maxCd : Int) (h : stripL question = []) :
    chat_endpoint question k documents maxCd = ChatAction.rejectEmpty := by
  simp [chat_endpoint, h]

theorem c7_witness :
    chat_endpoint (' ' :: [' ']) none none 6 = ChatAction.rejectEmpty :=
  c7_empty_question_rejected (' ' :: [' ']) none none 6 (by decide)

/-- C9 (confirmed): `top_k = k or settings.max_context_docs`, so a supplied
`k = 0` (Python falsy) and an omitted `k` both fall back to the configured
`max_context_docs`; a request with `k = 0` and a non-blank question is not
rejected — it runs with the default count. -/
theorem c9_zero_k_uses_default (question : List Char) (documents : Option (List Char))
    (maxCd : Int) (h : stripL question ≠ []) :
    chat_endpoint question (some 0) documents maxCd =
      ChatAction.run maxCd (parse_filter_docs documents) ∧
    chat_endpoint question none documents maxCd =
      ChatAction.run maxCd (parse_filter_docs documents) := by
  have hne : (stripL question).isEmpty = false := by
    cases hq : stripL question with
    | nil => exact absurd hq h
    | cons c cs => rfl
  constructor <;> simp [chat_endpoint, hne]

theorem c9_witness :
    chat_endpoint ('h' :: ['i']) (some 0) none 6 = ChatAction.run 6 (parse_filter_docs none) ∧
    chat_endpoint ('h' :: ['i']) none none 6 = ChatAction.run 6 (parse_filter_docs none) :=
  c9_zero_k_uses_default ('h' :: ['i']) none 6 (by decide)

/-- A message role in the conversation store. -/
inductive MRole where
  | human : MRole
  | ai : MRole
deriving DecidableEq

/-- A stored conversation message. -/
structure ChatMsg where
  role : MRole
  text : List Char
deriving DecidableEq

/-- The process-wide `_SESSION_STORE`, extensionally: `none` for a
previously-unseen session id. -/
abbrev SessionStore := String → Option (List ChatMsg)

/-- `get_history` (src/app/chains.py): create an empty history on first
reference, return the (possibly updated) store and the session's history. -/
def get_history (store : SessionStore) (sid : String) : SessionStore × List ChatMsg :=
  match store sid with
  | none => (fun s => if s = sid then some [] else store s, [])
  | some h => (store, h)

/-- `answer_question` (src/app/chains.py) with the two external calls —
`retrieve_context` over the vector store and `llm.invoke` — represented by
their outcomes.  The store is threaded explicitly: a raised exception in
Python propagates past the global `_SESSION_STORE`, whose mutations so far
persist.  Control flow follows the source: retrieval first, then
`get_history` during prompt assembly, then the generation call, and only
after it returns the two history appends (question, then answer); the
returned value carries the answer and the retrieved chunks from which the
citations are built. -/
def answer_question (store : SessionStore) (sid question : String)
    (retrieveRes : Except String (List SDoc)) (genRes : Except String String) :
    SessionStore × Except String (String × List SDoc) :=
  match retrieveRes with
  | Except.error e => (store, Except.error e)
  | Except.ok docs =>
    match genRes with
    | Except.error e => ((get_history store sid).1, Except.error e)
    | Except.ok ans =>
      (fun s =>
        if s = sid then
          some ((get_history store sid).2 ++
            [ChatMsg.mk MRole.human question.toList, ChatMsg.mk MRole.ai ans.toList])
        else (get_history store sid).1 s,
        Except.ok (ans, docs))

/-- The messages of a session (empty for an absent session). -/
def msgsOf (store : SessionStore) (sid : String) : List ChatMsg := (store sid).getD []

/-- C6 (confirmed): on success `answer_question` appends the user's question
and then the model's answer, in that order, after the generation call
returned; when retrieval or generation fails, the error propagates and no
message is appended to any session's history. -/
theorem c6_history_update (store : SessionStore) (sid question : String)
    (rr : Except String (List SDoc)) (gr : Except String String) :
    (∀ docs ans, rr = Except.ok docs → gr = Except.ok ans →
      msgsOf (answer_question store sid question rr gr).1 sid =
        msgsOf store sid ++
          [ChatMsg.mk MRole.human question.toList, ChatMsg.mk MRole.ai ans.toList] ∧
      (answer_question store sid question rr gr).2 = Except.ok (ans, docs)) ∧
    (∀ e, (rr = Except.error e ∨ gr = Except.error e) →
      ∀ s, msgsOf (answer_question store sid question rr gr).1 s = msgsOf store s) := by
  constructor
  · intro docs ans hr hg
    subst hr
    subst hg
    cases hs : store sid with
    | none =>
      constructor
      · simp [answer_question, get_history, hs, msgsOf]
      · rfl
    | some h =>
      constructor
      · simp [answer_question, get_history, hs, msgsOf]
      · rfl
  · intro e he s
    rcases he with he | he
    · subst he
      rfl
    · subst he
      cases rr with
      | error e2 => rfl
      | ok docs =>
        cases hs : store sid with
        | none =>
          by_cases hsid : s = sid
          · subst hsid
            simp [answer_question, get_history, hs, msgsOf]
          · simp [answer_question, get_history, hs, msgsOf, hsid]
        | some h =>
          simp [answer_question, get_history, hs, msgsOf]

/-- The empty session store. -/
def emptySessions : SessionStore := fun _ => none

def wsid : String := "s1"

def wq : String := "hi"

def wans : String := "fine"

def werr : String := "boom"

theorem c6_witness :
    msgsOf (answer_question emptySessions wsid wq (Except.ok []) (Except.ok wans)).1 wsid =
      msgsOf emptySessions wsid ++
        [ChatMsg.mk MRole.human wq.toList, ChatMsg.mk MRole.ai wans.toList] :=
  ((c6_history_update emptySessions wsid wq (Except.ok []) (Except.ok wans)).1
    [] wans rfl rfl).1

/-- C10 (confirmed): a chat request naming a previously-unseen session id
creates an empty history entry for it during prompt assembly (inside
`get_history`), before the generation call; when generation then fails, the
error propagates but the entry remains in the store — the failed request
still mutated the session store. -/
theorem c10_failed_request_creates_session (store : SessionStore) (sid question : String)
    (docs : List SDoc) (e : String) (hnew : store sid = none) :
    (answer_question store sid question (Except.ok docs) (Except.error e)).1 sid = some [] ∧
    (answer_question store sid question (Except.ok docs) (Except.error e)).2 =
      Except.error e := by
  constructor
  · simp [answer_question, get_history, hnew]
  · rfl

theorem c10_witness :
    (answer_question emptySessions wsid wq (Except.ok []) (Except.error werr)).1 wsid =
      some [] ∧
    (answer_question emptySessions wsid wq (Except.ok []) (Except.error werr)).2 =
      Except.error werr :=
  c10_failed_request_creates_session emptySessions wsid wq [] werr rfl

end Duc
